import Mathlib

/-!
Shallow embedding of the camel-cup round simulator (src/main.rs).

The program models one round of a camel race: a 16-slot track whose slots
hold stacks of camels, a dice pyramid that rolls each racing camel once
with a distance in 1..3, a setup phase that places the camels, and an
exhaustive enumeration over all 5! times 3^5 remaining-roll outcomes that
tallies which camel ends in last place.

Randomness (the shuffle of the dice list and the gen_range(1..=3) draws)
is modelled by explicit parameters: a shuffle outcome is passed as a list
(theorems hypothesise it is a permutation of the five racing colors, the
contract of a shuffle), and each gen_range draw is a function of one
natural-number seed taken from a seed list.  Panics (expect and slice
index out of bounds) are modelled by error results.
-/

/-- The enum CamelColor: five racing colors and two others. -/
inductive CamelColor where
  | Red
  | Green
  | Yellow
  | Blue
  | Purple
  | Black
  | White
deriving DecidableEq

/-- The struct Track: 16 spaces, each an ordered stack of camels, bottom of the stack first. -/
structure Track where
  spaces : List (List CamelColor)
deriving DecidableEq

/-- Track.new: sixteen empty spaces. -/
def Track.new : Track := ⟨List.replicate 16 []⟩

/-- The two panic sites of Track.advance: the expect calls (camel not found) and the
slice index when the destination is past the end of the spaces array. -/
inductive AdvanceError where
  | camelNotFound
  | outOfBounds
deriving DecidableEq

/-- Track.advance: find the space holding the camel, find the camel in that stack,
split off the camel and everything above it, and append that unit to the stack at
source + number.  Mirrors the Rust method; the expect panics and the out-of-bounds
index panic become error values. -/
def Track.advance (t : Track) (color : CamelColor) (number : Nat) : Except AdvanceError Track :=
  match t.spaces.findIdx? (fun space => space.contains color) with
  | none => .error .camelNotFound
  | some source =>
    let stack := t.spaces.getD source []
    match stack.findIdx? (fun camel => camel == color) with
    | none => .error .camelNotFound
    | some stackPosition =>
      let unit := stack.drop stackPosition
      let destination := source + number
      if destination < t.spaces.length then
        let removed := t.spaces.set source (stack.take stackPosition)
        .ok ⟨removed.set destination (removed.getD destination [] ++ unit)⟩
      else
        .error .outOfBounds

/-- The camel lookup performed at the start of Track.advance, as a standalone
function: the space index holding the color and the position inside that stack. -/
def Track.locate (t : Track) (color : CamelColor) : Option (Nat × Nat) :=
  match t.spaces.findIdx? (fun space => space.contains color) with
  | none => none
  | some source =>
    match (t.spaces.getD source []).findIdx? (fun camel => camel == color) with
    | none => none
    | some stackPosition => some (source, stackPosition)

/-- Track.losing: scan the spaces from index 0 and return the first element
(bottom of the stack) of the first non-empty space. -/
def Track.losing (t : Track) : Option CamelColor :=
  t.spaces.findSome? (fun space => space.head?)

/-- Reading one slot of the track, with the empty stack as default. -/
def Track.slot (t : Track) (j : Nat) : List CamelColor := t.spaces.getD j []

/-- The push done by the setup loop of Game.new: append one camel on top of slot i. -/
def Track.pushAt (t : Track) (i : Nat) (color : CamelColor) : Track :=
  ⟨t.spaces.set i (t.spaces.getD i [] ++ [color])⟩

/-- Number of markers of one color on the track. -/
def countColor (c : CamelColor) (t : Track) : Nat :=
  (t.spaces.map (fun stack => stack.count c)).sum

/-- Total number of camel markers on the track, over all slots. -/
def totalCamels (t : Track) : Nat :=
  (t.spaces.map List.length).sum

/-- The model of thread_rng gen_range(1..=3): a value in 1..3 computed from a seed. -/
def genRange13 (r : Nat) : Nat := r % 3 + 1

/-- The struct Pyramid: the list of dice still to be rolled. -/
structure Pyramid where
  dice : List CamelColor
deriving DecidableEq

/-- The struct Roll: a camel color paired with a rolled distance. -/
structure Roll where
  color : CamelColor
  number : Nat
deriving DecidableEq

/-- The five racing colors, in the order Pyramid.new lists them. -/
def racingColors : List CamelColor :=
  [CamelColor.Red, CamelColor.Green, CamelColor.Yellow, CamelColor.Blue, CamelColor.Purple]

/-- Pyramid.roll: pop the last die (returning none when the pool is empty) and pair it
with a gen_range(1..=3) distance computed from the seed r. -/
def Pyramid.roll (p : Pyramid) (r : Nat) : Option (Roll × Pyramid) :=
  match p.dice.getLast? with
  | none => none
  | some color => some (⟨color, genRange13 r⟩, ⟨p.dice.dropLast⟩)

/-- Pyramid.new: the five racing dice, shuffled; the shuffle outcome is the parameter. -/
def Pyramid.new (shuffled : List CamelColor) : Pyramid := ⟨shuffled⟩

/-- Pyramid.reset: refill with the five racing dice, shuffled; the shuffle outcome is
the parameter. -/
def Pyramid.reset (_p : Pyramid) (shuffled : List CamelColor) : Pyramid := ⟨shuffled⟩

/-- The struct Game. -/
structure Game where
  track : Track
  pyramid : Pyramid

/-- The while-let loop of Game.new, with an explicit iteration bound: roll until the
pyramid is exhausted, pushing each rolled camel onto slot (number - 1); each iteration
consumes one rng seed.  Every Pyramid.roll removes one die, so running the loop with
the current number of dice as the bound is the exact loop of the source; the bound
only makes the recursion structural. -/
def Game.drainFuel : Nat → Pyramid → List Nat → Track → Track × Pyramid
  | 0, pyr, _, track => (track, pyr)
  | fuel + 1, pyr, seeds, track =>
    match pyr.roll (seeds.headD 0) with
    | none => (track, pyr)
    | some (roll, rest) =>
      Game.drainFuel fuel rest seeds.tail (track.pushAt (roll.number - 1) roll.color)

/-- The while-let loop of Game.new. -/
def Game.drain (pyr : Pyramid) (seeds : List Nat) (track : Track) : Track × Pyramid :=
  Game.drainFuel pyr.dice.length pyr seeds track

/-- Repeatedly rolling a pyramid until it answers none, collecting the rolls: one
pool lifetime.  The iteration bound plays the same role as in Game.drainFuel. -/
def Pyramid.rollAll : Nat → Pyramid → List Nat → List Roll
  | 0, _, _ => []
  | fuel + 1, p, seeds =>
    match p.roll (seeds.headD 0) with
    | none => []
    | some (roll, rest) => roll :: Pyramid.rollAll fuel rest seeds.tail

/-- All rolls one pyramid yields over its lifetime. -/
def Pyramid.lifetime (p : Pyramid) (seeds : List Nat) : List Roll :=
  Pyramid.rollAll p.dice.length p seeds

/-- Game.new: drain a fresh pyramid onto an empty track, then reset the pyramid.
The two shuffle outcomes and the rng seeds are explicit parameters. -/
def Game.new (shuffled resetShuffled : List CamelColor) (seeds : List Nat) : Game :=
  let pyramid := Pyramid.new shuffled
  let track := Track.new
  let result := Game.drain pyramid seeds track
  { track := result.1, pyramid := result.2.reset resetShuffled }

/-- Folding the body of the setup loop over a list of draws. -/
def placeAll (t : Track) (draws : List (CamelColor × Nat)) : Track :=
  draws.foldl (fun acc d => acc.pushAt (d.2 - 1) d.1) t

/-- The numbers produced by the first k gen_range draws under a given seed list. -/
def numsOf (seeds : List Nat) (k : Nat) : List Nat :=
  (List.range k).map (fun i => genRange13 (seeds.getD i 0))

/-- The setup draws in draw order: Pyramid.roll pops from the end of the dice list,
so the draw order is the reverse of the shuffled list, each paired with its number. -/
def setupDraws (shuffled : List CamelColor) (seeds : List Nat) : List (CamelColor × Nat) :=
  shuffled.reverse.zip (numsOf seeds shuffled.length)

/-- The colors list built at the top of main, in its order. -/
def mainColors : List CamelColor :=
  [CamelColor.Red, CamelColor.Green, CamelColor.Blue, CamelColor.Yellow, CamelColor.Purple]

/-- The permutations iterator of main: every ordering of the five colors. -/
def colorOrders : List (List CamelColor) := mainColors.permutations

/-- The multi_cartesian_product combinator: one pick from each list, in every way. -/
def multiCartesianProduct : List (List Nat) → List (List Nat)
  | [] => [[]]
  | choices :: rest =>
    choices.flatMap (fun x => (multiCartesianProduct rest).map (fun xs => x :: xs))

/-- The number_rolls iterator of main: all length-5 vectors over the numbers 1, 2, 3. -/
def numberRolls : List (List Nat) := multiCartesianProduct (List.replicate 5 [1, 2, 3])

/-- The outcomes vector of main: the cartesian product of color orders and number rolls. -/
def outcomes : List (List CamelColor × List Nat) :=
  colorOrders.flatMap (fun order => numberRolls.map (fun nums => (order, nums)))

/-- The loser_tallies map of main, initialised to zero for the five racing colors,
modelled as an association list with the insertion keys of the HashMap::from call. -/
def initTallies : List (CamelColor × Nat) :=
  [(CamelColor.Red, 0), (CamelColor.Blue, 0), (CamelColor.Green, 0),
   (CamelColor.Yellow, 0), (CamelColor.Purple, 0)]

/-- The tally increment of main: get_mut(&losing).unwrap() followed by += 1.
The unwrap panic (key absent) is modelled by none. -/
def incTally (tallies : List (CamelColor × Nat)) (c : CamelColor) :
    Option (List (CamelColor × Nat)) :=
  match tallies.lookup c with
  | none => none
  | some _ => some (tallies.map (fun p => if p.1 == c then (p.1, p.2 + 1) else p))

/-- The inner loop of main: apply the five advance calls of one outcome, in order,
to a clone of the post-setup track. -/
def runBranch (track : Track) (order : List CamelColor) (nums : List Nat) :
    Except AdvanceError Track :=
  (order.zip nums).foldlM (fun t p => t.advance p.1 p.2) track

/-- One iteration of the outcome loop of main: run the branch, ask for the losing
camel, and bump its tally.  A panic anywhere (advance or unwrap) is none; a branch
whose track has no losing camel leaves the tally untouched, as the if-let does. -/
def enumStep (track : Track) (tallies : List (CamelColor × Nat))
    (outcome : List CamelColor × List Nat) : Option (List (CamelColor × Nat)) :=
  match runBranch track outcome.1 outcome.2 with
  | .error _ => none
  | .ok sim =>
    match sim.losing with
    | none => some tallies
    | some loser => incTally tallies loser

/-- The outcome loop of main: fold the step over all 29160 outcomes. -/
def enumerate (track : Track) : Option (List (CamelColor × Nat)) :=
  outcomes.foldlM (enumStep track) initTallies

/-- The whole of main up to the final tally: setup, then exhaustive enumeration. -/
def mainTally (shuffled resetShuffled : List CamelColor) (seeds : List Nat) :
    Option (List (CamelColor × Nat)) :=
  enumerate (Game.new shuffled resetShuffled seeds).track

/-- Sum of all counts in a tally. -/
def sumTally (tallies : List (CamelColor × Nat)) : Nat :=
  (tallies.map (fun p => p.2)).sum

/-! ### Generic list lemmas -/

/-- Setting one entry of a list changes a sum of a map by swapping one term. -/
theorem sum_map_set {α : Type} (f : α → Nat) (l : List α) :
    ∀ (i : Nat) (x : α) (h : i < l.length),
      ((l.set i x).map f).sum + f l[i] = (l.map f).sum + f x := by
  induction l with
  | nil => intro i x h; simp at h
  | cons a l ih =>
    intro i x h
    cases i with
    | zero => simp [List.set]; omega
    | succ i =>
      simp only [List.set, List.map_cons, List.sum_cons, List.getElem_cons_succ]
      have := ih i x (by simpa using h)
      omega

/-- Indexing the tail through getD. -/
theorem getD_succ_tail (seeds : List Nat) (i : Nat) :
    seeds.getD (i + 1) 0 = seeds.tail.getD i 0 := by
  cases seeds <;> simp [List.getD]

/-- The head default is the getD at zero. -/
theorem headD_eq_getD (seeds : List Nat) : seeds.headD 0 = seeds.getD 0 0 := by
  cases seeds <;> simp

/-! ### Slot lemmas -/

/-- A slot read is a getElem? with default. -/
theorem slot_def (t : Track) (j : Nat) : t.slot j = (t.spaces[j]?).getD [] := by
  simp [Track.slot, List.getD_eq_getElem?_getD]

/-- Every slot of the fresh track is empty. -/
theorem slot_new (j : Nat) : Track.new.slot j = [] := by
  rw [slot_def]
  cases h : Track.new.spaces[j]? with
  | none => rfl
  | some a =>
    have hm : a ∈ Track.new.spaces := List.getElem?_mem h
    have ha : a = [] := List.eq_of_mem_replicate hm
    simp [ha]

/-- The fresh track has sixteen slots. -/
theorem length_new : Track.new.spaces.length = 16 := by
  simp [Track.new]

/-- pushAt does not change the number of slots. -/
theorem pushAt_length (t : Track) (i : Nat) (c : CamelColor) :
    (t.pushAt i c).spaces.length = t.spaces.length := by
  simp [Track.pushAt]

/-- Reading a slot after pushAt, for an in-bounds push. -/
theorem pushAt_slot (t : Track) (i : Nat) (c : CamelColor) (hi : i < t.spaces.length) (j : Nat) :
    (t.pushAt i c).slot j = if j = i then t.slot j ++ [c] else t.slot j := by
  rw [slot_def, slot_def, Track.pushAt]
  by_cases hij : j = i
  · subst hij
    simp [List.getElem?_set, hi, Track.slot, List.getD_eq_getElem?_getD]
  · have hji : i ≠ j := fun h => hij h.symm
    simp [List.getElem?_set, hij, hji]

/-- The count of one color after pushAt, for an in-bounds push. -/
theorem pushAt_count (t : Track) (i : Nat) (c d : CamelColor) (hi : i < t.spaces.length) :
    countColor d (t.pushAt i c) = countColor d t + List.count d [c] := by
  have hget : t.spaces.getD i [] = t.spaces[i] := by
    simp [List.getD_eq_getElem?_getD, List.getElem?_eq_getElem hi]
  have h := sum_map_set (fun stack => stack.count d) t.spaces i (t.spaces[i] ++ [c]) hi
  simp only [List.count_append] at h
  unfold countColor Track.pushAt
  dsimp only
  rw [hget]
  omega

/-- A standalone statement of the advance computation through locate: the returned
value is determined by the located position and the bounds test. -/
theorem advance_eq (t : Track) (c : CamelColor) (n : Nat) :
    t.advance c n =
      match t.locate c with
      | none => Except.error AdvanceError.camelNotFound
      | some (s, p) =>
        if s + n < t.spaces.length then
          Except.ok ⟨(t.spaces.set s ((t.slot s).take p)).set (s + n)
            (((t.spaces.set s ((t.slot s).take p)).getD (s + n) []) ++ (t.slot s).drop p)⟩
        else Except.error AdvanceError.outOfBounds := by
  unfold Track.advance Track.locate Track.slot
  cases h1 : t.spaces.findIdx? (fun space => space.contains c) with
  | none => simp
  | some s =>
    cases h2 : (t.spaces.getD s []).findIdx? (fun camel => camel == c) with
    | none =>
      rw [List.getD_eq_getElem?_getD] at h2
      simp [h2]
    | some p =>
      rw [List.getD_eq_getElem?_getD] at h2
      by_cases h3 : s + n < t.spaces.length <;> simp [h2, h3]

/-! ### Locate and advance anatomy -/

/-- An in-bounds slot is the getElem at that index. -/
theorem slot_eq_getElem {t : Track} {s : Nat} (h : s < t.spaces.length) :
    t.slot s = t.spaces[s] := by
  simp [slot_def, List.getElem?_eq_getElem h]

/-- A successful locate points at an in-bounds slot that holds the camel. -/
theorem locate_spec {t : Track} {c : CamelColor} {s p : Nat}
    (h : t.locate c = some (s, p)) :
    s < t.spaces.length ∧ p < (t.slot s).length ∧ c ∈ t.slot s := by
  unfold Track.locate at h
  split at h
  · exact absurd h (by simp)
  · rename_i s' h1
    split at h
    · exact absurd h (by simp)
    · rename_i p' h2
      rw [Option.some.injEq, Prod.mk.injEq] at h
      obtain ⟨rfl, rfl⟩ := h
      obtain ⟨hs, hcont, -⟩ := List.findIdx?_eq_some_iff_getElem.mp h1
      obtain ⟨hp, hbeq, -⟩ := List.findIdx?_eq_some_iff_getElem.mp h2
      have hgd : t.spaces.getD s' [] = t.spaces[s'] := by
        simp [List.getD_eq_getElem?_getD, List.getElem?_eq_getElem hs]
      have hslot : t.slot s' = t.spaces.getD s' [] := rfl
      refine ⟨hs, ?_, ?_⟩
      · rw [hslot]; exact hp
      · rw [hslot]
        have hmem := List.getElem_mem hp
        rwa [eq_of_beq hbeq] at hmem

/-- A camel held in some stack of the track can always be located. -/
theorem locate_of_mem {t : Track} {c : CamelColor}
    (h : ∃ stack ∈ t.spaces, c ∈ stack) : ∃ s p, t.locate c = some (s, p) := by
  obtain ⟨stack, hstack, hc⟩ := h
  have hex : ∃ x, x ∈ t.spaces ∧ (fun space => space.contains c) x = true :=
    ⟨stack, hstack, by simpa using hc⟩
  have h1 := List.findIdx?_eq_some_of_exists hex
  have hfound := List.findIdx?_of_eq_some h1
  cases hg : t.spaces[t.spaces.findIdx (fun space => space.contains c)]? with
  | none => rw [hg] at hfound; exact absurd hfound (by simp)
  | some stack2 =>
    rw [hg] at hfound
    have hc2 : c ∈ stack2 := by simpa using hfound
    have hgd : t.spaces.getD (t.spaces.findIdx (fun space => space.contains c)) [] = stack2 := by
      rw [List.getD_eq_getElem?_getD, hg]
      rfl
    have hex2 : ∃ x, x ∈ t.spaces.getD (t.spaces.findIdx (fun space => space.contains c)) [] ∧
        (fun camel => camel == c) x = true := by
      rw [hgd]; exact ⟨c, hc2, by simp⟩
    have h2 := List.findIdx?_eq_some_of_exists hex2
    refine ⟨t.spaces.findIdx (fun space => space.contains c),
      List.findIdx (fun camel => camel == c)
        (t.spaces.getD (t.spaces.findIdx (fun space => space.contains c)) []), ?_⟩
    unfold Track.locate
    rw [h1]
    show (match (t.spaces.getD (t.spaces.findIdx
          (fun (space : List CamelColor) => space.contains c)) []).findIdx?
        (fun (camel : CamelColor) => camel == c) with
      | none => none
      | some stackPosition =>
        some (t.spaces.findIdx (fun (space : List CamelColor) => space.contains c),
          stackPosition)) = _
    rw [h2]

/-- A successful advance decomposes into a successful locate, an in-bounds destination,
and the two writes on the spaces list. -/
theorem advance_ok_parts {t t2 : Track} {c : CamelColor} {n : Nat}
    (h : t.advance c n = .ok t2) :
    ∃ s p, t.locate c = some (s, p) ∧ s + n < t.spaces.length ∧
      t2.spaces = (t.spaces.set s ((t.slot s).take p)).set (s + n)
        (((t.spaces.set s ((t.slot s).take p)).getD (s + n) []) ++ (t.slot s).drop p) := by
  rw [advance_eq] at h
  split at h
  · exact absurd h (by simp)
  · rename_i sp s p heq
    split at h
    · rename_i h3
      injection h with h4
      exact ⟨s, p, heq, h3, by rw [← h4]⟩
    · exact absurd h (by simp)

/-- When the camel is locatable and the destination is in bounds, advance succeeds. -/
theorem advance_isOk {t : Track} {c : CamelColor} {n s p : Nat}
    (hl : t.locate c = some (s, p)) (h3 : s + n < t.spaces.length) :
    ∃ t2, t.advance c n = .ok t2 := by
  rw [advance_eq, hl]
  simp only [h3, if_true]
  exact ⟨_, rfl⟩

/-- The camel-not-found panic happens exactly when locate fails. -/
theorem advance_notFound_iff {t : Track} {c : CamelColor} {n : Nat} :
    t.advance c n = .error .camelNotFound ↔ t.locate c = none := by
  rw [advance_eq]
  cases t.locate c with
  | none => simp
  | some sp =>
    obtain ⟨s, p⟩ := sp
    by_cases h3 : s + n < t.spaces.length <;> simp [h3]

/-- A successful advance does not change the number of slots. -/
theorem advance_length {t t2 : Track} {c : CamelColor} {n : Nat}
    (h : t.advance c n = .ok t2) : t2.spaces.length = t.spaces.length := by
  obtain ⟨s, p, -, -, hsp⟩ := advance_ok_parts h
  rw [hsp]
  simp

/-! ### Conservation -/

/-- Any additive slot statistic is conserved by a successful advance. -/
theorem advance_sum_f (f : List CamelColor → Nat)
    (hf : ∀ a b : List CamelColor, f (a ++ b) = f a + f b)
    {t t2 : Track} {c : CamelColor} {n : Nat} (h : t.advance c n = .ok t2) :
    (t2.spaces.map f).sum = (t.spaces.map f).sum := by
  obtain ⟨s, p, hl, h3, hsp⟩ := advance_ok_parts h
  obtain ⟨hs, hp, hmem⟩ := locate_spec hl
  have hmidlen : (t.spaces.set s ((t.slot s).take p)).length = t.spaces.length := by simp
  have h3m : s + n < (t.spaces.set s ((t.slot s).take p)).length := by omega
  have e1 := sum_map_set f t.spaces s ((t.slot s).take p) hs
  have e2 := sum_map_set f (t.spaces.set s ((t.slot s).take p)) (s + n)
    (((t.spaces.set s ((t.slot s).take p)).getD (s + n) []) ++ (t.slot s).drop p) h3m
  have hgd : (t.spaces.set s ((t.slot s).take p)).getD (s + n) [] =
      (t.spaces.set s ((t.slot s).take p))[s + n] := by
    simp [List.getD_eq_getElem?_getD, List.getElem?_eq_getElem h3m]
  have hslot : t.spaces[s] = t.slot s := (slot_eq_getElem hs).symm
  rw [hf] at e2
  rw [hgd] at e2
  have hsplit : f ((t.slot s).take p) + f ((t.slot s).drop p) = f (t.slot s) := by
    rw [← hf, List.take_append_drop]
  rw [hslot] at e1
  rw [hsp, hgd]
  omega

/-- The per-color marker count is conserved by a successful advance. -/
theorem advance_countColor {t t2 : Track} {c : CamelColor} {n : Nat}
    (h : t.advance c n = .ok t2) (d : CamelColor) : countColor d t2 = countColor d t :=
  advance_sum_f (fun stack => stack.count d) (fun a b => List.count_append d a b) h

/-- The total marker count is conserved by a successful advance. -/
theorem advance_total {t t2 : Track} {c : CamelColor} {n : Nat}
    (h : t.advance c n = .ok t2) : totalCamels t2 = totalCamels t :=
  advance_sum_f List.length (fun a b => List.length_append a b) h

/-- A color has a positive count exactly when some stack holds it. -/
theorem countColor_pos_iff {c : CamelColor} {t : Track} :
    0 < countColor c t ↔ ∃ stack ∈ t.spaces, c ∈ stack := by
  unfold countColor
  constructor
  · intro hpos
    by_contra hno
    push_neg at hno
    have hz : (t.spaces.map (fun stack => stack.count c)).sum = 0 := by
      rw [List.sum_eq_zero_iff]
      intro x hx
      obtain ⟨stack, hstack, rfl⟩ := List.mem_map.mp hx
      exact List.count_eq_zero.mpr (hno stack hstack)
    omega
  · rintro ⟨stack, hstack, hc⟩
    have h1 : 0 < stack.count c := List.count_pos_iff.mpr hc
    have h2 : stack.count c ∈ t.spaces.map (fun stack => stack.count c) :=
      List.mem_map_of_mem _ hstack
    have h3 := List.single_le_sum (fun x _ => Nat.zero_le x) _ h2
    omega

/-- No color outruns the total count. -/
theorem countColor_le_total (c : CamelColor) (t : Track) :
    countColor c t ≤ totalCamels t :=
  List.sum_le_sum (fun stack _ => List.count_le_length c stack)

/-! ### Losing -/

/-- losing answers none exactly when every slot is empty. -/
theorem losing_eq_none_iff {t : Track} :
    t.losing = none ↔ ∀ stack ∈ t.spaces, stack = [] := by
  unfold Track.losing
  rw [List.findSome?_eq_none_iff]
  constructor
  · intro h stack hstack
    exact List.head?_eq_none_iff.mp (h stack hstack)
  · intro h stack hstack
    exact List.head?_eq_none_iff.mpr (h stack hstack)

/-- A losing camel is on the track. -/
theorem losing_mem {t : Track} {c : CamelColor} (h : t.losing = some c) :
    ∃ stack ∈ t.spaces, c ∈ stack := by
  unfold Track.losing at h
  obtain ⟨l1, stack, l2, hsplit, hhead, -⟩ := List.findSome?_eq_some_iff.mp h
  refine ⟨stack, ?_, ?_⟩
  · rw [hsplit]
    simp
  · obtain ⟨ys, rfl⟩ := List.head?_eq_some_iff.mp hhead
    simp

/-- A track with a marker somewhere has a losing camel. -/
theorem losing_isSome_of_total_pos {t : Track} (h : 0 < totalCamels t) :
    ∃ c, t.losing = some c := by
  cases hl : t.losing with
  | some c => exact ⟨c, rfl⟩
  | none =>
    exfalso
    have hall := losing_eq_none_iff.mp hl
    have hz : totalCamels t = 0 := by
      unfold totalCamels
      rw [List.sum_eq_zero_iff]
      intro x hx
      obtain ⟨stack, hstack, rfl⟩ := List.mem_map.mp hx
      rw [hall stack hstack]
      rfl
    omega

/-- Scanning heads finds the head of the first non-empty list. -/
theorem findSome?_head_first {g : Type} : ∀ (L : List (List g)) (i : Nat),
    (∀ j, j < i → L.getD j [] = []) → L.getD i [] ≠ [] →
    L.findSome? (fun stack => stack.head?) = (L.getD i []).head? := by
  intro L
  induction L with
  | nil =>
    intro i hb hne
    exact absurd rfl hne
  | cons a rest ih =>
    intro i hb hne
    cases i with
    | zero =>
      cases a with
      | nil => exact absurd rfl hne
      | cons x xs => simp [List.findSome?_cons]
    | succ k =>
      have h0 : a = [] := hb 0 (Nat.succ_pos k)
      subst h0
      rw [List.findSome?_cons]
      simp only [List.head?_nil, List.getD_cons_succ]
      exact ih k (fun j hj => hb (j + 1) (by omega)) (by simpa using hne)

/-- The first non-empty slot determines the losing camel: it is that stack read from
the bottom. -/
theorem losing_first_slot {t : Track} {i : Nat}
    (hbefore : ∀ j, j < i → t.slot j = []) (hne : t.slot i ≠ []) :
    t.losing = (t.slot i).head? :=
  findSome?_head_first t.spaces i hbefore hne

/-! ### Frame effect of advance -/

/-- The full frame description of a successful advance: the moved block lands on top
of the destination stack in order, the markers below it stay, every other slot is
untouched (a zero distance writes the stack back unchanged). -/
theorem advance_frame {t t2 : Track} {c : CamelColor} {n s p : Nat}
    (h : t.advance c n = .ok t2) (hl : t.locate c = some (s, p)) :
    (∀ j, j ≠ s → j ≠ s + n → t2.slot j = t.slot j) ∧
    (s + n ≠ s → t2.slot (s + n) = t.slot (s + n) ++ (t.slot s).drop p ∧
      t2.slot s = (t.slot s).take p) ∧
    (s + n = s → t2.slot s = t.slot s) := by
  obtain ⟨s', p', hl', h3, hsp⟩ := advance_ok_parts h
  rw [hl, Option.some.injEq, Prod.mk.injEq] at hl'
  obtain ⟨rfl, rfl⟩ := hl'
  obtain ⟨hs, -, -⟩ := locate_spec hl
  have hmidlen : (t.spaces.set s ((t.slot s).take p)).length = t.spaces.length := by simp
  have hsm : s < (t.spaces.set s ((t.slot s).take p)).length := by omega
  have h3m : s + n < (t.spaces.set s ((t.slot s).take p)).length := by omega
  have hmid_at : ∀ j, j ≠ s →
      (t.spaces.set s ((t.slot s).take p))[j]? = t.spaces[j]? := by
    intro j hj
    exact List.getElem?_set_ne (fun hh => hj hh.symm)
  refine ⟨?_, ?_, ?_⟩
  · intro j hjs hjd
    rw [slot_def, slot_def, hsp]
    rw [List.getElem?_set_ne (fun hh => hjd hh.symm), hmid_at j hjs]
  · intro hne
    constructor
    · rw [slot_def, hsp, List.getElem?_set_self h3m]
      have : (t.spaces.set s ((t.slot s).take p)).getD (s + n) [] = t.slot (s + n) := by
        rw [List.getD_eq_getElem?_getD, hmid_at (s + n) hne, slot_def]
      rw [this]
      rfl
    · rw [slot_def, hsp, List.getElem?_set_ne hne, List.getElem?_set_self hs]
      rfl
  · intro heq
    rw [slot_def, hsp, heq, List.getElem?_set_self hsm]
    have : (t.spaces.set s ((t.slot s).take p)).getD s [] = (t.slot s).take p := by
      rw [List.getD_eq_getElem?_getD, List.getElem?_set_self hs]
      rfl
    rw [this]
    simp [List.take_append_drop]

/-- A slot that is non-empty after a successful advance was non-empty before, unless
it is the destination slot. -/
theorem advance_slot_ne_empty {t t2 : Track} {c : CamelColor} {n s p : Nat}
    (h : t.advance c n = .ok t2) (hl : t.locate c = some (s, p)) :
    ∀ j, t2.slot j ≠ [] → t.slot j ≠ [] ∨ j = s + n := by
  intro j hne
  obtain ⟨hframe, hmove, hzero⟩ := advance_frame h hl
  by_cases hjd : j = s + n
  · exact Or.inr hjd
  · left
    by_cases hjs : j = s
    · subst hjs
      by_cases hzn : j + n = j
      · rw [hzero hzn] at hne
        exact hne
      · obtain ⟨-, h2⟩ := hmove hzn
        rw [h2] at hne
        intro hempty
        apply hne
        rw [hempty]
        simp
    · rw [hframe j hjs hjd] at hne
      exact hne

/-! ### Running the advances of one branch -/

/-- Folding advances over a roll list conserves totals, per-color counts, and the
slot count. -/
theorem foldl_advance_conserves : ∀ (l : List (CamelColor × Nat)) (t t2 : Track),
    l.foldlM (fun tr pr => tr.advance pr.1 pr.2) t = Except.ok t2 →
    totalCamels t2 = totalCamels t ∧ (∀ d, countColor d t2 = countColor d t) ∧
      t2.spaces.length = t.spaces.length := by
  intro l
  induction l with
  | nil =>
    intro t t2 h
    replace h : (Except.ok t : Except AdvanceError Track) = Except.ok t2 := h
    rw [Except.ok.injEq] at h
    subst h
    exact ⟨rfl, fun d => rfl, rfl⟩
  | cons pr rest ih =>
    intro t t2 h
    rw [List.foldlM_cons] at h
    cases hadv : t.advance pr.1 pr.2 with
    | error e =>
      rw [hadv] at h
      replace h : (Except.error e : Except AdvanceError Track) = Except.ok t2 := h
      exact absurd h (by simp)
    | ok t1 =>
      rw [hadv] at h
      replace h : rest.foldlM (fun tr pr => tr.advance pr.1 pr.2) t1 = Except.ok t2 := h
      obtain ⟨ht, hc, hlen⟩ := ih t1 t2 h
      exact ⟨ht.trans (advance_total hadv), fun d => (hc d).trans (advance_countColor hadv d),
        hlen.trans (advance_length hadv)⟩

/-- When every camel of the roll list is on the track, folding the advances never
dies with the camel-not-found panic: any failure is the out-of-bounds one. -/
theorem foldl_advance_no_notFound : ∀ (l : List (CamelColor × Nat)) (t : Track),
    (∀ pr ∈ l, 0 < countColor pr.1 t) →
    l.foldlM (fun tr pr => tr.advance pr.1 pr.2) t ≠
      Except.error AdvanceError.camelNotFound := by
  intro l
  induction l with
  | nil =>
    intro t hmem h
    replace h : (Except.ok t : Except AdvanceError Track) =
      Except.error AdvanceError.camelNotFound := h
    exact absurd h (by simp)
  | cons pr rest ih =>
    intro t hmem h
    rw [List.foldlM_cons] at h
    cases hadv : t.advance pr.1 pr.2 with
    | error e =>
      rw [hadv] at h
      replace h : (Except.error e : Except AdvanceError Track) =
        Except.error AdvanceError.camelNotFound := h
      rw [Except.error.injEq] at h
      subst h
      have hloc := advance_notFound_iff.mp hadv
      have hpos := hmem pr (List.mem_cons_self pr rest)
      obtain ⟨s, p, hsp⟩ := locate_of_mem (countColor_pos_iff.mp hpos)
      rw [hsp] at hloc
      cases hloc
    | ok t1 =>
      rw [hadv] at h
      replace h : rest.foldlM (fun tr pr => tr.advance pr.1 pr.2) t1 =
        Except.error AdvanceError.camelNotFound := h
      apply ih t1 _ h
      intro q hq
      rw [advance_countColor hadv q.1]
      exact hmem q (List.mem_cons_of_mem pr hq)

/-- When every camel of the roll list is on the track, every distance is at most 3,
and the occupied slots start at or below M with room for all the moves, folding the
advances succeeds, and the occupied slots stay at or below M plus three per move. -/
theorem foldl_advance_ok : ∀ (l : List (CamelColor × Nat)) (t : Track) (M : Nat),
    t.spaces.length = 16 →
    (∀ pr ∈ l, 0 < countColor pr.1 t ∧ pr.2 ≤ 3) →
    (∀ i, t.slot i ≠ [] → i ≤ M) →
    M + 3 * l.length ≤ 15 →
    ∃ t2, l.foldlM (fun tr pr => tr.advance pr.1 pr.2) t = Except.ok t2 := by
  intro l
  induction l with
  | nil =>
    intro t M hlen hmem hbound hroom
    exact ⟨t, rfl⟩
  | cons pr rest ih =>
    intro t M hlen hmem hbound hroom
    simp only [List.length_cons] at hroom
    obtain ⟨hpos, hd3⟩ := hmem pr (List.mem_cons_self pr rest)
    obtain ⟨s, p, hsp⟩ := locate_of_mem (countColor_pos_iff.mp hpos)
    obtain ⟨hs, hp, hcmem⟩ := locate_spec hsp
    have hsM : s ≤ M := by
      apply hbound
      intro hempty
      rw [hempty] at hcmem
      cases hcmem
    have hdest : s + pr.2 < t.spaces.length := by omega
    obtain ⟨t1, hok⟩ := advance_isOk hsp hdest
    have hlen1 : t1.spaces.length = 16 := (advance_length hok).trans hlen
    have hbound1 : ∀ i, t1.slot i ≠ [] → i ≤ M + 3 := by
      intro i hne
      cases advance_slot_ne_empty hok hsp i hne with
      | inl hold => exact le_trans (hbound i hold) (by omega)
      | inr hdst => omega
    have hcnt1 : ∀ q ∈ rest, 0 < countColor q.1 t1 ∧ q.2 ≤ 3 := by
      intro q hq
      obtain ⟨hq1, hq2⟩ := hmem q (List.mem_cons_of_mem pr hq)
      rw [advance_countColor hok q.1]
      exact ⟨hq1, hq2⟩
    have hroom1 : (M + 3) + 3 * rest.length ≤ 15 := by omega
    obtain ⟨t2, h2⟩ := ih t1 (M + 3) hlen1 hcnt1 hbound1 hroom1
    refine ⟨t2, ?_⟩
    rw [List.foldlM_cons, hok]
    exact h2

/-! ### The setup loop -/

/-- Unfolding one gen_range draw from the seed list. -/
theorem numsOf_succ (seeds : List Nat) (k : Nat) :
    numsOf seeds (k + 1) = genRange13 (seeds.headD 0) :: numsOf seeds.tail k := by
  unfold numsOf
  rw [List.range_succ_eq_map, List.map_cons, List.map_map, headD_eq_getD]
  congr 1
  apply List.map_congr_left
  intro a ha
  simp only [Function.comp_apply]
  rw [getD_succ_tail]

/-- Peeling the last die off the setup draws. -/
theorem setupDraws_concat (ds : List CamelColor) (c : CamelColor) (seeds : List Nat) :
    setupDraws (ds ++ [c]) seeds =
      (c, genRange13 (seeds.headD 0)) :: setupDraws ds seeds.tail := by
  unfold setupDraws
  rw [List.reverse_append]
  simp only [List.reverse_cons, List.reverse_nil, List.nil_append, List.singleton_append,
    List.length_append, List.length_cons, List.length_nil]
  rw [numsOf_succ, List.zip_cons_cons]

/-- The drain loop is the fold of the placement step over the setup draws, and it
always empties the pyramid. -/
theorem drain_spec (ds : List CamelColor) : ∀ (seeds : List Nat) (t : Track),
    Game.drain ⟨ds⟩ seeds t = (placeAll t (setupDraws ds seeds), ⟨[]⟩) := by
  induction ds using List.reverseRecOn with
  | nil => intro seeds t; rfl
  | append_singleton ds c ih =>
    intro seeds t
    unfold Game.drain
    have hlen : (Pyramid.mk (ds ++ [c])).dice.length = ds.length + 1 := by simp
    rw [hlen]
    have hroll : (Pyramid.mk (ds ++ [c])).roll (seeds.headD 0) =
        some (⟨c, genRange13 (seeds.headD 0)⟩, ⟨ds⟩) := by
      unfold Pyramid.roll
      simp only [List.getLast?_concat, List.dropLast_concat]
    simp only [Game.drainFuel, hroll]
    have hstep := ih seeds.tail (t.pushAt (genRange13 (seeds.headD 0) - 1) c)
    unfold Game.drain at hstep
    rw [hstep, setupDraws_concat]
    rfl

/-- placeAll does not change the number of slots. -/
theorem placeAll_length : ∀ (draws : List (CamelColor × Nat)) (t : Track),
    (placeAll t draws).spaces.length = t.spaces.length := by
  intro draws
  induction draws with
  | nil => intro t; rfl
  | cons d rest ih =>
    intro t
    show (placeAll (t.pushAt (d.2 - 1) d.1) rest).spaces.length = _
    rw [ih, pushAt_length]

/-- After placing all draws, a slot holds what it held before followed by the
colors drawn for it, in draw order. -/
theorem placeAll_slot : ∀ (draws : List (CamelColor × Nat)) (t : Track),
    (∀ d ∈ draws, d.2 - 1 < t.spaces.length) → ∀ j,
    (placeAll t draws).slot j =
      t.slot j ++ (draws.filter (fun d => d.2 - 1 == j)).map Prod.fst := by
  intro draws
  induction draws with
  | nil => intro t hin j; simp [placeAll]
  | cons d rest ih =>
    intro t hin j
    have hd : d.2 - 1 < t.spaces.length := hin d (List.mem_cons_self d rest)
    show (placeAll (t.pushAt (d.2 - 1) d.1) rest).slot j = _
    rw [ih (t.pushAt (d.2 - 1) d.1)
      (fun q hq => by rw [pushAt_length]; exact hin q (List.mem_cons_of_mem d hq)) j]
    rw [pushAt_slot t (d.2 - 1) d.1 hd j, List.filter_cons]
    by_cases hj : j = d.2 - 1
    · have hb : (d.2 - 1 == j) = true := by simp [hj]
      rw [if_pos hj, hb]
      simp [List.append_assoc]
    · have hb : (d.2 - 1 == j) = false := by
        rw [beq_eq_false_iff_ne]
        exact fun hh => hj hh.symm
      rw [if_neg hj, hb]
      simp

/-- After placing all draws, the count of one color grows by its draw count. -/
theorem placeAll_count : ∀ (draws : List (CamelColor × Nat)) (t : Track) (c : CamelColor),
    (∀ d ∈ draws, d.2 - 1 < t.spaces.length) →
    countColor c (placeAll t draws) = countColor c t + (draws.map Prod.fst).count c := by
  intro draws
  induction draws with
  | nil => intro t c hin; simp [placeAll]
  | cons d rest ih =>
    intro t c hin
    show countColor c (placeAll (t.pushAt (d.2 - 1) d.1) rest) = _
    rw [ih (t.pushAt (d.2 - 1) d.1) c
      (fun q hq => by rw [pushAt_length]; exact hin q (List.mem_cons_of_mem d hq))]
    rw [pushAt_count t (d.2 - 1) d.1 c (hin d (List.mem_cons_self d rest))]
    simp only [List.map_cons, List.count_cons, List.count_singleton, List.count_nil]
    omega

/-! ### The post-setup state -/

/-- The fresh track has no markers. -/
theorem countColor_new (c : CamelColor) : countColor c Track.new = 0 := by
  show (List.map (fun stack => stack.count c) (List.replicate 16 [])).sum = 0
  rw [List.map_replicate]
  simp

/-- The track built by Game.new is the fold of placements over the setup draws. -/
theorem gameNew_track (shuffled resetShuffled : List CamelColor) (seeds : List Nat) :
    (Game.new shuffled resetShuffled seeds).track =
      placeAll Track.new (setupDraws shuffled seeds) := by
  show (Game.drain (Pyramid.new shuffled) seeds Track.new).1 = _
  rw [show Pyramid.new shuffled = ⟨shuffled⟩ from rfl, drain_spec]

/-- After Game.new, the pyramid holds exactly the reset dice. -/
theorem gameNew_pyramid (shuffled resetShuffled : List CamelColor) (seeds : List Nat) :
    (Game.new shuffled resetShuffled seeds).pyramid = ⟨resetShuffled⟩ := rfl

/-- Every setup draw carries a number between 1 and 3. -/
theorem setupDraws_num_range (shuffled : List CamelColor) (seeds : List Nat) :
    ∀ d ∈ setupDraws shuffled seeds, 1 ≤ d.2 ∧ d.2 ≤ 3 := by
  intro d hd
  obtain ⟨d1, d2⟩ := d
  have h2 := (List.of_mem_zip hd).2
  unfold numsOf at h2
  obtain ⟨i, hi, hgen⟩ := List.mem_map.mp h2
  show 1 ≤ d2 ∧ d2 ≤ 3
  rw [← hgen]
  unfold genRange13
  omega

/-- The colors of the setup draws are the shuffled dice in draw (reverse) order. -/
theorem setupDraws_map_fst (shuffled : List CamelColor) (seeds : List Nat) :
    (setupDraws shuffled seeds).map Prod.fst = shuffled.reverse := by
  unfold setupDraws
  apply List.map_fst_zip
  simp [numsOf]

/-- There are as many setup draws as dice. -/
theorem setupDraws_length (shuffled : List CamelColor) (seeds : List Nat) :
    (setupDraws shuffled seeds).length = shuffled.length := by
  unfold setupDraws
  rw [List.length_zip]
  simp [numsOf]

/-- The post-setup track still has sixteen slots. -/
theorem setup_spaces_length (shuffled resetShuffled : List CamelColor) (seeds : List Nat) :
    (Game.new shuffled resetShuffled seeds).track.spaces.length = 16 := by
  rw [gameNew_track, placeAll_length]
  exact length_new

/-- Every setup draw lands inside the fresh track. -/
theorem setupDraws_lt (shuffled : List CamelColor) (seeds : List Nat) :
    ∀ d ∈ setupDraws shuffled seeds, d.2 - 1 < Track.new.spaces.length := by
  intro d hd
  obtain ⟨-, h3⟩ := setupDraws_num_range shuffled seeds d hd
  rw [length_new]
  omega

/-- One slot of the post-setup track: the camels whose draw targeted it, in draw order. -/
theorem setup_slot (shuffled resetShuffled : List CamelColor) (seeds : List Nat) (j : Nat) :
    (Game.new shuffled resetShuffled seeds).track.slot j =
      ((setupDraws shuffled seeds).filter (fun d => d.2 - 1 == j)).map Prod.fst := by
  rw [gameNew_track, placeAll_slot _ _ (setupDraws_lt shuffled seeds) j, slot_new,
    List.nil_append]

/-- Marker counts after setup are the counts in the shuffled dice list. -/
theorem setup_countColor (shuffled resetShuffled : List CamelColor) (seeds : List Nat)
    (c : CamelColor) :
    countColor c (Game.new shuffled resetShuffled seeds).track = shuffled.count c := by
  rw [gameNew_track, placeAll_count _ _ _ (setupDraws_lt shuffled seeds),
    setupDraws_map_fst, List.count_reverse, countColor_new]
  omega

/-- Setup only occupies the first three slots. -/
theorem setup_slot_bound (shuffled resetShuffled : List CamelColor) (seeds : List Nat) :
    ∀ j, (Game.new shuffled resetShuffled seeds).track.slot j ≠ [] → j ≤ 2 := by
  intro j hne
  rw [setup_slot] at hne
  cases hf : (setupDraws shuffled seeds).filter (fun d => d.2 - 1 == j) with
  | nil => rw [hf] at hne; exact absurd rfl hne
  | cons d rest =>
    have hd : d ∈ (setupDraws shuffled seeds).filter (fun d => d.2 - 1 == j) := by
      rw [hf]
      exact List.mem_cons_self d rest
    obtain ⟨hdmem, hbeq⟩ := List.mem_filter.mp hd
    have h3 := (setupDraws_num_range shuffled seeds d hdmem).2
    have hj : d.2 - 1 = j := eq_of_beq hbeq
    omega

/-- Every marker on the post-setup track came from the shuffled dice. -/
theorem setup_marker_mem (shuffled resetShuffled : List CamelColor) (seeds : List Nat)
    (c : CamelColor) (j : Nat)
    (h : c ∈ (Game.new shuffled resetShuffled seeds).track.slot j) : c ∈ shuffled := by
  rw [setup_slot] at h
  obtain ⟨d, hd, rfl⟩ := List.mem_map.mp h
  have hdd := List.mem_of_mem_filter hd
  have h2 : d.1 ∈ (setupDraws shuffled seeds).map Prod.fst := List.mem_map_of_mem _ hdd
  rw [setupDraws_map_fst, List.mem_reverse] at h2
  exact h2

/-- After a setup from a permutation of the racing dice, the losing query answers
some racing color. -/
theorem setup_losing (shuffled resetShuffled : List CamelColor) (seeds : List Nat)
    (hperm : shuffled.Perm racingColors) :
    ∃ c, (Game.new shuffled resetShuffled seeds).track.losing = some c ∧
      c ∈ racingColors := by
  have hred : countColor CamelColor.Red (Game.new shuffled resetShuffled seeds).track = 1 := by
    rw [setup_countColor, hperm.count_eq]
    decide
  have htot : 0 < totalCamels (Game.new shuffled resetShuffled seeds).track := by
    have := countColor_le_total CamelColor.Red (Game.new shuffled resetShuffled seeds).track
    omega
  obtain ⟨c, hc⟩ := losing_isSome_of_total_pos htot
  refine ⟨c, hc, ?_⟩
  obtain ⟨stack, hstack, hcm⟩ := losing_mem hc
  obtain ⟨j, hj, hjeq⟩ := List.mem_iff_getElem.mp hstack
  have hslot : (Game.new shuffled resetShuffled seeds).track.slot j = stack := by
    rw [slot_eq_getElem hj]
    exact hjeq
  rw [← hslot] at hcm
  have := setup_marker_mem shuffled resetShuffled seeds c j hcm
  exact hperm.mem_iff.mp this

/-! ### The outcome space -/

/-- Membership in the multi cartesian product is an elementwise choice. -/
theorem mem_multiCartesianProduct : ∀ (L : List (List Nat)) (x : List Nat),
    x ∈ multiCartesianProduct L ↔ List.Forall₂ (fun a l => a ∈ l) x L := by
  intro L
  induction L with
  | nil =>
    intro x
    constructor
    · intro h
      simp only [multiCartesianProduct, List.mem_singleton] at h
      subst h
      exact List.Forall₂.nil
    · intro h
      cases h
      simp [multiCartesianProduct]
  | cons choices rest ih =>
    intro x
    constructor
    · intro h
      simp only [multiCartesianProduct, List.mem_flatMap, List.mem_map] at h
      obtain ⟨a, ha, y, hy, rfl⟩ := h
      exact List.Forall₂.cons ha ((ih y).mp hy)
    · intro h
      cases h with
      | cons ha hy =>
        simp only [multiCartesianProduct, List.mem_flatMap, List.mem_map]
        exact ⟨_, ha, _, (ih _).mpr hy, rfl⟩

/-- A choice from n copies of the same list is a length-n list over that list. -/
theorem forall2_mem_replicate : ∀ (n : Nat) (x : List Nat) (l : List Nat),
    List.Forall₂ (fun a t => a ∈ t) x (List.replicate n l) ↔
      (x.length = n ∧ ∀ a ∈ x, a ∈ l) := by
  intro n
  induction n with
  | zero =>
    intro x l
    constructor
    · intro h
      cases h
      simp
    · rintro ⟨hl, -⟩
      have hx : x = [] := List.length_eq_zero.mp hl
      subst hx
      exact List.Forall₂.nil
  | succ k ih =>
    intro x l
    rw [List.replicate_succ]
    constructor
    · intro h
      cases h with
      | cons ha hrest =>
        rename_i a as
        obtain ⟨hlen, hall⟩ := (ih as l).mp hrest
        refine ⟨by simp [hlen], ?_⟩
        intro b hb
        cases List.mem_cons.mp hb with
        | inl hba => rw [hba]; exact ha
        | inr hbas => exact hall b hbas
    · rintro ⟨hlen, hall⟩
      cases x with
      | nil => simp at hlen
      | cons a as =>
        refine List.Forall₂.cons (hall a (List.mem_cons_self a as)) ((ih as l).mpr ⟨?_, ?_⟩)
        · simpa using hlen
        · exact fun b hb => hall b (List.mem_cons_of_mem a hb)

/-- The outcomes vector holds exactly one entry per ordering of the five racing
colors and per length-5 vector of distances from 1..3. -/
theorem mem_outcomes {order : List CamelColor} {nums : List Nat} :
    (order, nums) ∈ outcomes ↔
      order.Perm mainColors ∧ nums.length = 5 ∧ (∀ x ∈ nums, x = 1 ∨ x = 2 ∨ x = 3) := by
  unfold outcomes colorOrders numberRolls
  rw [List.mem_flatMap]
  constructor
  · rintro ⟨o, ho, hmem⟩
    obtain ⟨ns, hns, heq⟩ := List.mem_map.mp hmem
    rw [Prod.mk.injEq] at heq
    obtain ⟨rfl, rfl⟩ := heq
    obtain ⟨hlen, hall⟩ := (forall2_mem_replicate 5 ns _).mp ((mem_multiCartesianProduct _ ns).mp hns)
    refine ⟨List.mem_permutations.mp ho, hlen, ?_⟩
    intro x hx
    have := hall x hx
    simpa using this
  · rintro ⟨hperm, hlen, hall⟩
    refine ⟨order, List.mem_permutations.mpr hperm, ?_⟩
    rw [List.mem_map]
    refine ⟨nums, ?_, rfl⟩
    rw [mem_multiCartesianProduct, forall2_mem_replicate]
    refine ⟨hlen, ?_⟩
    intro a ha
    have := hall a ha
    simp only [List.mem_cons, List.mem_singleton]
    tauto

/-- The outcomes vector enumerates 29160 branches. -/
theorem outcomes_length : outcomes.length = 29160 := by
  unfold outcomes
  rw [List.length_flatMap]
  have h1 : List.map (List.length ∘ fun order => numberRolls.map (fun nums => (order, nums)))
      colorOrders = List.map (fun _ => 243) colorOrders := by
    apply List.map_congr_left
    intro o ho
    simp only [Function.comp_apply, List.length_map]
    rfl
  rw [h1]
  have h2 : List.map (fun (_ : List CamelColor) => 243) colorOrders =
      List.replicate colorOrders.length 243 := by
    induction colorOrders with
    | nil => rfl
    | cons a l ihl => simp [List.replicate_succ, ihl]
  rw [h2, List.sum_replicate]
  have h3 : colorOrders.length = 120 := by
    unfold colorOrders
    rw [List.length_permutations]
    rfl
  rw [h3, smul_eq_mul]

/-! ### Tallies -/

/-- A successful lookup means the key is present. -/
theorem lookup_some_mem : ∀ (tal : List (CamelColor × Nat)) (c : CamelColor),
    (tal.lookup c).isSome → c ∈ tal.map Prod.fst := by
  intro tal
  induction tal with
  | nil => intro c h; cases h
  | cons p rest ih =>
    intro c h
    obtain ⟨k, v⟩ := p
    rw [List.lookup_cons] at h
    cases hck : c == k with
    | true =>
      have hck2 : c = k := eq_of_beq hck
      simp [hck2]
    | false =>
      rw [hck] at h
      simp only [List.map_cons, List.mem_cons]
      exact Or.inr (ih c h)

/-- A present key means the lookup succeeds. -/
theorem lookup_isSome_of_mem : ∀ (tal : List (CamelColor × Nat)) (c : CamelColor),
    c ∈ tal.map Prod.fst → (tal.lookup c).isSome := by
  intro tal
  induction tal with
  | nil => intro c h; cases h
  | cons p rest ih =>
    intro c h
    obtain ⟨k, v⟩ := p
    rw [List.lookup_cons]
    cases hck : c == k with
    | true => rfl
    | false =>
      show (rest.lookup c).isSome = true
      apply ih
      simp only [List.map_cons, List.mem_cons] at h
      cases h with
      | inl he =>
        exfalso
        rw [he] at hck
        simp at hck
      | inr hm => exact hm

/-- The increment map leaves keys alone. -/
theorem incTally_map_fst (tal : List (CamelColor × Nat)) (c : CamelColor)
    (tal2 : List (CamelColor × Nat)) (h : incTally tal c = some tal2) :
    tal2.map Prod.fst = tal.map Prod.fst := by
  unfold incTally at h
  split at h
  · cases h
  · rw [Option.some.injEq] at h
    subst h
    rw [List.map_map]
    apply List.map_congr_left
    intro p hp
    simp only [Function.comp_apply]
    split <;> rfl

/-- Under distinct keys, a successful increment raises the sum by exactly one. -/
theorem sumTally_incMap : ∀ (tal : List (CamelColor × Nat)) (c : CamelColor),
    (tal.map Prod.fst).Nodup → (tal.lookup c).isSome →
    sumTally (tal.map (fun p => if p.1 == c then (p.1, p.2 + 1) else p)) =
      sumTally tal + 1 := by
  intro tal
  induction tal with
  | nil => intro c hnd hlk; cases hlk
  | cons p rest ih =>
    intro c hnd hlk
    obtain ⟨k, v⟩ := p
    rw [List.map_cons, List.nodup_cons] at hnd
    obtain ⟨hnotin, hndrest⟩ := hnd
    by_cases hk : k = c
    · subst hk
      have hrest : rest.map (fun q => if q.1 == k then (q.1, q.2 + 1) else q) = rest := by
        have hid : ∀ q ∈ rest, (if q.1 == k then (q.1, q.2 + 1) else q) = q := by
          intro q hq
          have hne : q.1 ≠ k := by
            intro he
            have hmm := List.mem_map_of_mem Prod.fst hq
            rw [he] at hmm
            exact hnotin hmm
          simp [hne]
        rw [List.map_congr_left hid]
        simp
      rw [List.map_cons]
      simp only [beq_self_eq_true, if_true]
      rw [hrest]
      simp [sumTally]
      omega
    · have hbkc : ((k, v).1 == c) = false := beq_eq_false_iff_ne.mpr hk
      have hbck : (c == k) = false := beq_eq_false_iff_ne.mpr (fun he => hk he.symm)
      rw [List.map_cons, hbkc]
      simp only [Bool.false_eq_true, if_false]
      have hlk2 : (rest.lookup c).isSome := by
        rw [List.lookup_cons, hbck] at hlk
        exact hlk
      have hrec := ih c hndrest hlk2
      simp [sumTally] at hrec ⊢
      omega

/-- A successful increment raises the sum by exactly one. -/
theorem sumTally_incTally {tal tal2 : List (CamelColor × Nat)} {c : CamelColor}
    (hnd : (tal.map Prod.fst).Nodup) (h : incTally tal c = some tal2) :
    sumTally tal2 = sumTally tal + 1 := by
  unfold incTally at h
  split at h
  · cases h
  · rename_i v hv
    rw [Option.some.injEq] at h
    subst h
    exact sumTally_incMap tal c hnd (by rw [hv]; rfl)

/-! ### The outcome loop -/

/-- A branch that applies at least one advance and succeeds leaves a non-empty
track, so the losing query answers some camel. -/
theorem runBranch_losing {t sim : Track} {order : List CamelColor} {nums : List Nat}
    (hne : order.zip nums ≠ [])
    (h : runBranch t order nums = Except.ok sim) : ∃ c, sim.losing = some c := by
  unfold runBranch at h
  cases hz : order.zip nums with
  | nil => exact absurd hz hne
  | cons pr rest =>
    rw [hz, List.foldlM_cons] at h
    cases hadv : t.advance pr.1 pr.2 with
    | error e =>
      rw [hadv] at h
      replace h : (Except.error e : Except AdvanceError Track) = Except.ok sim := h
      exact absurd h (by simp)
    | ok t1 =>
      rw [hadv] at h
      replace h : rest.foldlM (fun tr pr => tr.advance pr.1 pr.2) t1 = Except.ok sim := h
      obtain ⟨s, p, hl, h3, -⟩ := advance_ok_parts hadv
      obtain ⟨hs, hp, hmem⟩ := locate_spec hl
      have hpos : 0 < countColor pr.1 t := by
        apply countColor_pos_iff.mpr
        refine ⟨t.spaces[s], List.getElem_mem hs, ?_⟩
        rw [← slot_eq_getElem hs]
        exact hmem
      have ht1 : 0 < countColor pr.1 t1 := by
        rw [advance_countColor hadv]
        exact hpos
      obtain ⟨htot, -, -⟩ := foldl_advance_conserves rest t1 sim h
      have hsimpos : 0 < totalCamels sim := by
        have hle := countColor_le_total pr.1 t1
        omega
      exact losing_isSome_of_total_pos hsimpos

/-- A losing camel is counted on its track. -/
theorem losing_countColor_pos {t : Track} {c : CamelColor} (h : t.losing = some c) :
    0 < countColor c t :=
  countColor_pos_iff.mpr (losing_mem h)

/-- A step of the outcome loop that succeeds leaves the tally keys alone. -/
theorem enumStep_some_fst {track : Track} {tal tal2 : List (CamelColor × Nat)}
    {o : List CamelColor × List Nat} (h : enumStep track tal o = some tal2) :
    tal2.map Prod.fst = tal.map Prod.fst := by
  unfold enumStep at h
  split at h
  · cases h
  · split at h
    · rw [Option.some.injEq] at h
      subst h
      rfl
    · exact incTally_map_fst _ _ _ h

/-- A step of the outcome loop that succeeds on a branch with at least one advance
raises the tally sum by exactly one. -/
theorem enumStep_some_sum {track : Track} {tal tal2 : List (CamelColor × Nat)}
    {o : List CamelColor × List Nat} (hzip : o.1.zip o.2 ≠ [])
    (hnd : (tal.map Prod.fst).Nodup)
    (h : enumStep track tal o = some tal2) :
    sumTally tal2 = sumTally tal + 1 := by
  unfold enumStep at h
  split at h
  · cases h
  · rename_i sim hrb
    split at h
    · rename_i hlos
      exfalso
      obtain ⟨c, hcc⟩ := runBranch_losing hzip hrb
      rw [hcc] at hlos
      cases hlos
    · exact sumTally_incTally hnd h

/-- Folding the outcome loop over branches with at least one advance each adds one
to the sum per branch, when it completes. -/
theorem enumerate_fold_sum : ∀ (outs : List (List CamelColor × List Nat)) (track : Track)
    (tal tal2 : List (CamelColor × Nat)),
    (∀ o ∈ outs, o.1.zip o.2 ≠ []) →
    tal.map Prod.fst = initTallies.map Prod.fst →
    outs.foldlM (enumStep track) tal = some tal2 →
    sumTally tal2 = sumTally tal + outs.length := by
  intro outs
  induction outs with
  | nil =>
    intro track tal tal2 hne hkeys h
    replace h : (some tal : Option (List (CamelColor × Nat))) = some tal2 := h
    rw [Option.some.injEq] at h
    subst h
    simp
  | cons o rest ih =>
    intro track tal tal2 hne hkeys h
    rw [List.foldlM_cons] at h
    cases hstep : enumStep track tal o with
    | none =>
      rw [hstep] at h
      replace h : (none : Option (List (CamelColor × Nat))) = some tal2 := h
      exact absurd h (by simp)
    | some tal1 =>
      rw [hstep] at h
      replace h : rest.foldlM (enumStep track) tal1 = some tal2 := h
      have hnd : (tal.map Prod.fst).Nodup := by
        rw [hkeys]
        decide
      have hsum1 := enumStep_some_sum (hne o (List.mem_cons_self o rest)) hnd hstep
      have hkeys1 : tal1.map Prod.fst = initTallies.map Prod.fst :=
        (enumStep_some_fst hstep).trans hkeys
      have hrec := ih track tal1 tal2 (fun q hq => hne q (List.mem_cons_of_mem o hq)) hkeys1 h
      rw [List.length_cons]
      omega

/-- The outcome loop completes when every branch succeeds with a losing camel whose
tally key exists. -/
theorem enumerate_fold_isSome : ∀ (outs : List (List CamelColor × List Nat)) (track : Track)
    (tal : List (CamelColor × Nat)),
    tal.map Prod.fst = initTallies.map Prod.fst →
    (∀ o ∈ outs, ∃ sim, runBranch track o.1 o.2 = Except.ok sim ∧
        ∃ c, sim.losing = some c ∧ c ∈ racingColors) →
    ∃ tal2, outs.foldlM (enumStep track) tal = some tal2 := by
  intro outs
  induction outs with
  | nil => intro track tal hkeys hok; exact ⟨tal, rfl⟩
  | cons o rest ih =>
    intro track tal hkeys hok
    obtain ⟨sim, hsim, c, hc, hcr⟩ := hok o (List.mem_cons_self o rest)
    have hmemkeys : c ∈ tal.map Prod.fst := by
      rw [hkeys]
      have : ∀ d ∈ racingColors, d ∈ initTallies.map Prod.fst := by decide
      exact this c hcr
    have hlk := lookup_isSome_of_mem tal c hmemkeys
    obtain ⟨v, hv⟩ := Option.isSome_iff_exists.mp hlk
    have hstep : enumStep track tal o =
        some (tal.map (fun p => if p.1 == c then (p.1, p.2 + 1) else p)) := by
      unfold enumStep
      rw [hsim]
      show (match sim.losing with
        | none => some tal
        | some loser => incTally tal loser) = _
      rw [hc]
      show incTally tal c = _
      unfold incTally
      rw [hv]
    have hkeys1 : (tal.map (fun p => if p.1 == c then (p.1, p.2 + 1) else p)).map Prod.fst =
        initTallies.map Prod.fst := (enumStep_some_fst hstep).trans hkeys
    obtain ⟨tal2, h2⟩ := ih track _ hkeys1 (fun q hq => hok q (List.mem_cons_of_mem o hq))
    refine ⟨tal2, ?_⟩
    rw [List.foldlM_cons, hstep]
    exact h2

/-- On a sixteen-slot track, a slot bound checked below sixteen holds everywhere. -/
theorem slot_bound_of_16 (t : Track) (hlen : t.spaces.length = 16) (M : Nat)
    (h : ∀ i, i < 16 → t.slot i ≠ [] → i ≤ M) : ∀ i, t.slot i ≠ [] → i ≤ M := by
  intro i hne
  by_cases hi : i < 16
  · exact h i hi hne
  · exfalso
    apply hne
    rw [slot_def, List.getElem?_eq_none (by omega)]
    rfl

/-- On a track whose markers all sit on slot 0, are racing, and include every racing
color, every enumerated branch succeeds and ends with a racing losing camel. -/
theorem outcomes_branch_ok (t : Track)
    (hlen : t.spaces.length = 16)
    (hcnt : ∀ c ∈ mainColors, 0 < countColor c t)
    (hbound : ∀ i, t.slot i ≠ [] → i ≤ 0)
    (hBlack : countColor CamelColor.Black t = 0)
    (hWhite : countColor CamelColor.White t = 0) :
    ∀ o ∈ outcomes, ∃ sim, runBranch t o.1 o.2 = Except.ok sim ∧
      ∃ c, sim.losing = some c ∧ c ∈ racingColors := by
  intro o ho
  obtain ⟨order, nums⟩ := o
  obtain ⟨hperm, hnlen, hall⟩ := mem_outcomes.mp ho
  have holen : order.length = 5 := by
    rw [hperm.length_eq]
    rfl
  have hzlen : (order.zip nums).length = 5 := by
    rw [List.length_zip, holen, hnlen]
    rfl
  have hmemzip : ∀ pr ∈ order.zip nums, 0 < countColor pr.1 t ∧ pr.2 ≤ 3 := by
    intro pr hpr
    obtain ⟨p1, p2⟩ := pr
    obtain ⟨h1, h2⟩ := List.of_mem_zip hpr
    refine ⟨hcnt p1 (hperm.subset h1), ?_⟩
    rcases hall p2 h2 with h | h | h <;> omega
  obtain ⟨sim, hsim⟩ := foldl_advance_ok (order.zip nums) t 0 hlen hmemzip hbound
    (by rw [hzlen])
  have hzne : order.zip nums ≠ [] := by
    intro hnil
    rw [hnil] at hzlen
    cases hzlen
  have hrb : runBranch t order nums = Except.ok sim := hsim
  refine ⟨sim, hrb, ?_⟩
  obtain ⟨c, hc⟩ := runBranch_losing hzne hrb
  refine ⟨c, hc, ?_⟩
  have hcpos := losing_countColor_pos hc
  obtain ⟨-, hcc, -⟩ := foldl_advance_conserves (order.zip nums) t sim hsim
  rw [hcc c] at hcpos
  have hsplit : c ∈ racingColors ∨ c = CamelColor.Black ∨ c = CamelColor.White := by
    cases c <;> simp [racingColors]
  rcases hsplit with h | h | h
  · exact h
  · rw [h] at hcpos; omega
  · rw [h] at hcpos; omega

/-- The colors rolled over one pool lifetime are the dice in reverse order. -/
theorem rollAll_colors : ∀ (ds : List CamelColor) (seeds : List Nat),
    (Pyramid.rollAll ds.length ⟨ds⟩ seeds).map Roll.color = ds.reverse := by
  intro ds
  induction ds using List.reverseRecOn with
  | nil => intro seeds; rfl
  | append_singleton ds c ih =>
    intro seeds
    have hlen : (ds ++ [c]).length = ds.length + 1 := by simp
    rw [hlen]
    have hroll : (Pyramid.mk (ds ++ [c])).roll (seeds.headD 0) =
        some (⟨c, genRange13 (seeds.headD 0)⟩, ⟨ds⟩) := by
      unfold Pyramid.roll
      simp only [List.getLast?_concat, List.dropLast_concat]
    simp only [Pyramid.rollAll, hroll]
    rw [List.map_cons, ih seeds.tail, List.reverse_append]
    rfl

/-- A roll answers none exactly on the empty pool. -/
theorem roll_none_iff (p : Pyramid) (r : Nat) : p.roll r = none ↔ p.dice = [] := by
  unfold Pyramid.roll
  cases hl : p.dice.getLast? with
  | none => simpa using List.getLast?_eq_none_iff.mp hl
  | some c =>
    simp only []
    constructor
    · intro h; cases h
    · intro h
      rw [h] at hl
      cases hl

/-- A successful roll pops the last die and draws a number between 1 and 3. -/
theorem roll_some_spec {p : Pyramid} {r : Nat} {rl : Roll} {rest : Pyramid}
    (h : p.roll r = some (rl, rest)) :
    rl.color ∈ p.dice ∧ rest.dice = p.dice.dropLast ∧
      rest.dice.length + 1 = p.dice.length ∧
      rest.dice.count rl.color + 1 = p.dice.count rl.color ∧
      1 ≤ rl.number ∧ rl.number ≤ 3 := by
  unfold Pyramid.roll at h
  cases hl : p.dice.getLast? with
  | none => rw [hl] at h; cases h
  | some c =>
    rw [hl] at h
    rw [Option.some.injEq, Prod.mk.injEq] at h
    obtain ⟨h1, h2⟩ := h
    have hne : p.dice ≠ [] := by
      intro he
      rw [he] at hl
      cases hl
    have hgl : p.dice.getLast hne = c := by
      have := List.getLast?_eq_getLast p.dice hne
      rw [hl, Option.some.injEq] at this
      exact this.symm
    have hsplit : p.dice.dropLast ++ [c] = p.dice := by
      rw [← hgl]
      exact List.dropLast_concat_getLast hne
    have hcolor : rl.color = c := by rw [← h1]
    have hrest : rest.dice = p.dice.dropLast := by rw [← h2]
    have hpos : 0 < p.dice.length := List.length_pos.mpr hne
    refine ⟨?_, hrest, ?_, ?_, ?_, ?_⟩
    · rw [hcolor]
      exact List.mem_of_getLast?_eq_some hl
    · rw [hrest, List.length_dropLast]
      omega
    · rw [hrest, hcolor, ← hsplit, List.count_append, List.count_singleton]
      simp
    · rw [← h1]
      show 1 ≤ genRange13 r
      unfold genRange13
      omega
    · rw [← h1]
      show genRange13 r ≤ 3
      unfold genRange13
      omega

/-- A losing camel is read from the bottom of the first non-empty slot. -/
theorem losing_some_first {t : Track} {c : CamelColor} (h : t.losing = some c) :
    ∃ i, (∀ j, j < i → t.slot j = []) ∧ (t.slot i).head? = some c := by
  unfold Track.losing at h
  obtain ⟨l1, stack, l2, hsplit, hhead, hprev⟩ := List.findSome?_eq_some_iff.mp h
  refine ⟨l1.length, ?_, ?_⟩
  · intro j hj
    rw [slot_def, hsplit, List.getElem?_append, if_pos hj, List.getElem?_eq_getElem hj]
    have hmem := List.getElem_mem hj
    have hnone := hprev _ hmem
    simp only [Option.getD_some]
    exact List.head?_eq_none_iff.mp hnone
  · rw [slot_def, hsplit, List.getElem?_append_right (le_refl l1.length)]
    simp only [Nat.sub_self, List.getElem?_cons_zero, Option.getD_some]
    exact hhead

/-! ### The claims -/

/-- C1: the Outcome Enumerator builds exactly every permutation of the five racing
colors crossed with every length-5 distance vector over 1..3, 29160 branches in all,
and whenever the enumeration completes, the final loser tally sums to exactly 29160. -/
theorem claim1 (t : Track) (tal : List (CamelColor × Nat))
    (h : enumerate t = some tal) :
    outcomes.length = 29160 ∧
    (∀ (order : List CamelColor) (nums : List Nat), ((order, nums) ∈ outcomes ↔
      order.Perm mainColors ∧ nums.length = 5 ∧ (∀ x ∈ nums, x = 1 ∨ x = 2 ∨ x = 3))) ∧
    sumTally tal = 29160 := by
  refine ⟨outcomes_length, fun order nums => mem_outcomes, ?_⟩
  have hzip : ∀ o ∈ outcomes, o.1.zip o.2 ≠ [] := by
    intro o ho
    obtain ⟨order, nums⟩ := o
    obtain ⟨hperm, hnlen, -⟩ := mem_outcomes.mp ho
    intro hnil
    have hz : (order.zip nums).length = 0 := by rw [hnil]; rfl
    rw [List.length_zip, hperm.length_eq, hnlen] at hz
    have h5 : mainColors.length = 5 := rfl
    rw [h5] at hz
    omega
  have hsum := enumerate_fold_sum outcomes t initTallies tal hzip rfl h
  rw [outcomes_length] at hsum
  have h0 : sumTally initTallies = 0 := rfl
  omega

/-- Witness for C1: on the setup where every camel rolled 1 (all on slot 0), the
enumeration completes and its tally sums to 29160. -/
theorem claim1_witness :
    ∃ tal, enumerate (Game.new racingColors racingColors []).track = some tal ∧
      outcomes.length = 29160 ∧ sumTally tal = 29160 := by
  obtain ⟨tal, htal⟩ := enumerate_fold_isSome outcomes
    (Game.new racingColors racingColors []).track initTallies rfl
    (outcomes_branch_ok _ (by decide) (by decide)
      (slot_bound_of_16 _ (by decide) 0 (by decide)) (by decide) (by decide))
  exact ⟨tal, htal, (claim1 _ tal htal).1, (claim1 _ tal htal).2.2⟩

/-- C2 counterexample: a track Round Setup can produce (every camel rolled 3, so all
five stack on slot 2) and an enumerated branch (bottom-up order, every distance 3)
on which the fifth advance computes destination 17 and dies out of bounds. -/
theorem claim2_counterexample :
    [CamelColor.Purple, CamelColor.Blue, CamelColor.Yellow, CamelColor.Green,
      CamelColor.Red].Perm mainColors ∧
    (∀ x ∈ [3, 3, 3, 3, 3], x = 1 ∨ x = 2 ∨ x = 3) ∧
    runBranch (Game.new racingColors racingColors [2, 2, 2, 2, 2]).track
      [CamelColor.Purple, CamelColor.Blue, CamelColor.Yellow, CamelColor.Green,
        CamelColor.Red]
      [3, 3, 3, 3, 3] = Except.error AdvanceError.outOfBounds := by
  refine ⟨by decide, by decide, ?_⟩
  rfl

/-- C2 amended: on every track Round Setup produces, every enumerated branch always
finds the camel it advances (the couldnt-find-camel panic is unreachable); the only
possible failure is the out-of-bounds destination, which does occur. -/
theorem claim2_amended (shuffled resetShuffled : List CamelColor) (seeds : List Nat)
    (order : List CamelColor) (nums : List Nat)
    (hs : shuffled.Perm racingColors) (ho : order.Perm mainColors) :
    runBranch (Game.new shuffled resetShuffled seeds).track order nums ≠
      Except.error AdvanceError.camelNotFound := by
  show (order.zip nums).foldlM (fun tr pr => tr.advance pr.1 pr.2)
    (Game.new shuffled resetShuffled seeds).track ≠ Except.error AdvanceError.camelNotFound
  apply foldl_advance_no_notFound
  intro pr hpr
  obtain ⟨p1, p2⟩ := pr
  have h1 : p1 ∈ order := (List.of_mem_zip hpr).1
  have h2 : p1 ∈ mainColors := ho.subset h1
  have h3 : p1 ∈ racingColors := by
    have hsub : ∀ c ∈ mainColors, c ∈ racingColors := by decide
    exact hsub p1 h2
  show 0 < countColor p1 (Game.new shuffled resetShuffled seeds).track
  rw [setup_countColor, hs.count_eq]
  have hpos : ∀ c ∈ racingColors, 0 < racingColors.count c := by decide
  exact hpos p1 h3

/-- Witness for the amended C2 at the all-on-slot-2 setup and the overflowing branch:
even there the failure is not the camel-not-found panic. -/
theorem claim2_amended_witness :
    runBranch (Game.new racingColors racingColors [2, 2, 2, 2, 2]).track
      [CamelColor.Purple, CamelColor.Blue, CamelColor.Yellow, CamelColor.Green,
        CamelColor.Red]
      [3, 3, 3, 3, 3] ≠ Except.error AdvanceError.camelNotFound :=
  claim2_amended racingColors racingColors [2, 2, 2, 2, 2]
    [CamelColor.Purple, CamelColor.Blue, CamelColor.Yellow, CamelColor.Green,
      CamelColor.Red]
    [3, 3, 3, 3, 3] (by decide) (by decide)

/-- C3: a successful advance conserves the total number of markers on the track. -/
theorem claim3 (t t2 : Track) (c : CamelColor) (n : Nat)
    (h : t.advance c n = Except.ok t2) : totalCamels t2 = totalCamels t :=
  advance_total h

/-- Witness for C3: one concrete successful advance keeps the total. -/
theorem claim3_witness :
    Track.advance (Track.new.pushAt 0 CamelColor.Red) CamelColor.Red 1 =
      Except.ok (Track.new.pushAt 1 CamelColor.Red) ∧
    totalCamels (Track.new.pushAt 1 CamelColor.Red) =
      totalCamels (Track.new.pushAt 0 CamelColor.Red) :=
  ⟨rfl, claim3 (Track.new.pushAt 0 CamelColor.Red) (Track.new.pushAt 1 CamelColor.Red)
    CamelColor.Red 1 rfl⟩

/-- C4: a successful advance moves the located camel and everything above it to the
destination stack in order, keeps the markers below it in place, and leaves every
other slot untouched. -/
theorem claim4 (t t2 : Track) (c : CamelColor) (n s p : Nat)
    (hadv : t.advance c n = Except.ok t2) (hloc : t.locate c = some (s, p)) :
    (∀ j, j ≠ s → j ≠ s + n → t2.slot j = t.slot j) ∧
    (s + n ≠ s → t2.slot (s + n) = t.slot (s + n) ++ (t.slot s).drop p ∧
      t2.slot s = (t.slot s).take p) ∧
    (s + n = s → t2.slot s = t.slot s) :=
  advance_frame hadv hloc

/-- Witness for C4: moving Red (carrying Green) from slot 0 to slot 1. -/
theorem claim4_witness :
    ((Track.new.pushAt 1 CamelColor.Red).pushAt 1 CamelColor.Green).slot (0 + 1) =
      ((Track.new.pushAt 0 CamelColor.Red).pushAt 0 CamelColor.Green).slot (0 + 1) ++
        ((((Track.new.pushAt 0 CamelColor.Red).pushAt 0 CamelColor.Green).slot 0).drop 0) ∧
    ((Track.new.pushAt 1 CamelColor.Red).pushAt 1 CamelColor.Green).slot 0 =
      ((((Track.new.pushAt 0 CamelColor.Red).pushAt 0 CamelColor.Green).slot 0).take 0) :=
  (claim4 ((Track.new.pushAt 0 CamelColor.Red).pushAt 0 CamelColor.Green)
    ((Track.new.pushAt 1 CamelColor.Red).pushAt 1 CamelColor.Green)
    CamelColor.Red 1 0 0 rfl rfl).2.1 (by decide)

/-- C5: losing answers none exactly on the all-empty track, and otherwise answers
precisely the bottom marker of the non-empty slot with the smallest index. -/
theorem claim5 (t : Track) :
    (t.losing = none ↔ ∀ stack ∈ t.spaces, stack = []) ∧
    (∀ c, (t.losing = some c ↔
      ∃ i, (∀ j, j < i → t.slot j = []) ∧ (t.slot i).head? = some c)) := by
  refine ⟨losing_eq_none_iff, ?_⟩
  intro c
  constructor
  · exact losing_some_first
  · rintro ⟨i, hb, hh⟩
    have hne : t.slot i ≠ [] := by
      intro he
      rw [he] at hh
      cases hh
    rw [losing_first_slot hb hne]
    exact hh

/-- Witness for C5: with slot 0 empty and Red alone on slot 1, Red is losing. -/
theorem claim5_witness : (Track.new.pushAt 1 CamelColor.Red).losing = some CamelColor.Red :=
  ((claim5 (Track.new.pushAt 1 CamelColor.Red)).2 CamelColor.Red).mpr
    ⟨1, by decide, by decide⟩

/-- C6: Round Setup drains the pool completely: exactly five draws, in draw order
the reverse of the shuffled dice; each draw lands on slot (distance - 1), ties
stacking in draw order (earlier draw lower); and afterwards the pool again holds
five dice. -/
theorem claim6 (shuffled resetShuffled : List CamelColor) (seeds : List Nat)
    (hs : shuffled.Perm racingColors) (hr : resetShuffled.Perm racingColors) :
    (setupDraws shuffled seeds).length = 5 ∧
    (setupDraws shuffled seeds).map Prod.fst = shuffled.reverse ∧
    (∀ d ∈ setupDraws shuffled seeds, 1 ≤ d.2 ∧ d.2 ≤ 3) ∧
    (∀ j, (Game.new shuffled resetShuffled seeds).track.slot j =
      ((setupDraws shuffled seeds).filter (fun d => d.2 - 1 == j)).map Prod.fst) ∧
    (Game.new shuffled resetShuffled seeds).pyramid.dice.length = 5 := by
  refine ⟨?_, setupDraws_map_fst shuffled seeds, setupDraws_num_range shuffled seeds,
    fun j => setup_slot shuffled resetShuffled seeds j, ?_⟩
  · rw [setupDraws_length, hs.length_eq]
    rfl
  · rw [gameNew_pyramid]
    show resetShuffled.length = 5
    rw [hr.length_eq]
    rfl

/-- Witness for C6 on the identity shuffle and default seeds. -/
theorem claim6_witness :
    (setupDraws racingColors []).length = 5 ∧
    (Game.new racingColors racingColors []).pyramid.dice.length = 5 :=
  ⟨(claim6 racingColors racingColors [] (List.Perm.refl _) (List.Perm.refl _)).1,
   (claim6 racingColors racingColors [] (List.Perm.refl _) (List.Perm.refl _)).2.2.2.2⟩

/-- C7: a roll removes and returns one die with a distance in 1..3, answers none
exactly when the pool is empty, and one lifetime of a fresh pool returns each racing
color at most once, five rolls in all. -/
theorem claim7 (p : Pyramid) (r : Nat) (shuffled : List CamelColor) (seeds : List Nat)
    (hperm : shuffled.Perm racingColors) :
    (p.roll r = none ↔ p.dice = []) ∧
    (∀ rl rest, p.roll r = some (rl, rest) →
      rl.color ∈ p.dice ∧ rest.dice.length + 1 = p.dice.length ∧
      rest.dice.count rl.color + 1 = p.dice.count rl.color ∧
      1 ≤ rl.number ∧ rl.number ≤ 3) ∧
    ((Pyramid.new shuffled).lifetime seeds).length = 5 ∧
    (∀ c, (((Pyramid.new shuffled).lifetime seeds).map Roll.color).count c ≤ 1) := by
  refine ⟨roll_none_iff p r, ?_, ?_, ?_⟩
  · intro rl rest h
    obtain ⟨h1, -, h3, h4, h5, h6⟩ := roll_some_spec h
    exact ⟨h1, h3, h4, h5, h6⟩
  · calc ((Pyramid.new shuffled).lifetime seeds).length
        = (((Pyramid.new shuffled).lifetime seeds).map Roll.color).length :=
          (List.length_map _ _).symm
      _ = shuffled.reverse.length := by
          show ((Pyramid.rollAll shuffled.length ⟨shuffled⟩ seeds).map Roll.color).length = _
          rw [rollAll_colors]
      _ = 5 := by
          rw [List.length_reverse, hperm.length_eq]
          rfl
  · intro c
    show ((Pyramid.rollAll shuffled.length ⟨shuffled⟩ seeds).map Roll.color).count c ≤ 1
    rw [rollAll_colors, List.count_reverse]
    have hnodup : shuffled.Nodup := hperm.nodup_iff.mpr (by decide)
    exact List.nodup_iff_count_le_one.mp hnodup c

/-- Witness for C7: the empty pool answers none, and a fresh pool yields five rolls. -/
theorem claim7_witness :
    ((⟨[]⟩ : Pyramid).roll 0 = none) ∧
    ((Pyramid.new racingColors).lifetime []).length = 5 :=
  ⟨((claim7 ⟨[]⟩ 0 racingColors [] (List.Perm.refl _)).1).mpr rfl,
   (claim7 ⟨[]⟩ 0 racingColors [] (List.Perm.refl _)).2.2.1⟩

/-- C8: the enumeration phase consumes no randomness: two runs of main whose setup
phases produced the same post-setup track produce the same final tally, whatever
their random inputs were. -/
theorem claim8 (s1 r1 : List CamelColor) (e1 : List Nat)
    (s2 r2 : List CamelColor) (e2 : List Nat)
    (h : (Game.new s1 r1 e1).track = (Game.new s2 r2 e2).track) :
    mainTally s1 r1 e1 = mainTally s2 r2 e2 := by
  unfold mainTally
  rw [h]

/-- Witness for C8: two runs with different random inputs but the same post-setup
track have identical tallies. -/
theorem claim8_witness :
    (Game.new racingColors racingColors []).track =
      (Game.new racingColors racingColors.reverse [3, 3, 3, 3, 3]).track ∧
    mainTally racingColors racingColors [] =
      mainTally racingColors racingColors.reverse [3, 3, 3, 3, 3] :=
  ⟨by decide, claim8 racingColors racingColors [] racingColors racingColors.reverse
    [3, 3, 3, 3, 3] (by decide)⟩

/-- C9 counterexample: no execution of Round Setup ever places a non-racing marker
(Black or White) on the track, against the claim that some does. -/
theorem claim9_counterexample :
    ¬ ∃ (shuffled resetShuffled : List CamelColor) (seeds : List Nat),
      shuffled.Perm racingColors ∧
      ∃ j, CamelColor.Black ∈ (Game.new shuffled resetShuffled seeds).track.slot j ∨
        CamelColor.White ∈ (Game.new shuffled resetShuffled seeds).track.slot j := by
  rintro ⟨shuffled, resetShuffled, seeds, hperm, j, h | h⟩
  · have hmem := setup_marker_mem shuffled resetShuffled seeds _ j h
    exact absurd (hperm.mem_iff.mp hmem) (by decide)
  · have hmem := setup_marker_mem shuffled resetShuffled seeds _ j h
    exact absurd (hperm.mem_iff.mp hmem) (by decide)

/-- C9 amended: the two non-racing colors exist in the color enumeration but are
never placed on the track by Round Setup; every marker setup places is racing. -/
theorem claim9_amended (shuffled resetShuffled : List CamelColor) (seeds : List Nat)
    (hperm : shuffled.Perm racingColors) :
    countColor CamelColor.Black (Game.new shuffled resetShuffled seeds).track = 0 ∧
    countColor CamelColor.White (Game.new shuffled resetShuffled seeds).track = 0 ∧
    ∀ c j, c ∈ (Game.new shuffled resetShuffled seeds).track.slot j →
      c ∈ racingColors := by
  refine ⟨?_, ?_, ?_⟩
  · rw [setup_countColor, hperm.count_eq]
    decide
  · rw [setup_countColor, hperm.count_eq]
    decide
  · intro c j hc
    exact hperm.mem_iff.mp (setup_marker_mem shuffled resetShuffled seeds c j hc)

/-- Witness for the amended C9 on the identity shuffle. -/
theorem claim9_amended_witness :
    countColor CamelColor.Black (Game.new racingColors racingColors []).track = 0 ∧
    countColor CamelColor.White (Game.new racingColors racingColors []).track = 0 :=
  ⟨(claim9_amended racingColors racingColors [] (List.Perm.refl _)).1,
   (claim9_amended racingColors racingColors [] (List.Perm.refl _)).2.1⟩

/-- C10: after any Round Setup, each racing color sits exactly once on the track,
only slots 0..2 are occupied, no non-racing marker appears, losing answers some
racing color, and the tally increment for any racing color succeeds. -/
theorem claim10 (shuffled resetShuffled : List CamelColor) (seeds : List Nat)
    (hs : shuffled.Perm racingColors) :
    (∀ c ∈ racingColors, countColor c (Game.new shuffled resetShuffled seeds).track = 1) ∧
    countColor CamelColor.Black (Game.new shuffled resetShuffled seeds).track = 0 ∧
    countColor CamelColor.White (Game.new shuffled resetShuffled seeds).track = 0 ∧
    (∀ j, (Game.new shuffled resetShuffled seeds).track.slot j ≠ [] → j ≤ 2) ∧
    (∃ c, (Game.new shuffled resetShuffled seeds).track.losing = some c ∧
      c ∈ racingColors) ∧
    (∀ c ∈ racingColors, (incTally initTallies c).isSome) := by
  refine ⟨?_, ?_, ?_, setup_slot_bound shuffled resetShuffled seeds,
    setup_losing shuffled resetShuffled seeds hs, by decide⟩
  · intro c hc
    rw [setup_countColor, hs.count_eq]
    have hone : ∀ c ∈ racingColors, racingColors.count c = 1 := by decide
    exact hone c hc
  · rw [setup_countColor, hs.count_eq]
    decide
  · rw [setup_countColor, hs.count_eq]
    decide

/-- Witness for C10 on the identity shuffle. -/
theorem claim10_witness :
    countColor CamelColor.Red (Game.new racingColors racingColors []).track = 1 ∧
    (∃ c, (Game.new racingColors racingColors []).track.losing = some c ∧
      c ∈ racingColors) :=
  ⟨(claim10 racingColors racingColors [] (List.Perm.refl _)).1 CamelColor.Red (by decide),
   (claim10 racingColors racingColors [] (List.Perm.refl _)).2.2.2.2.1⟩
